import Mathlib

/-!
Shallow embedding of the Batch-File-Renamer core (`src/store/index.ts` and
`src/types/index.ts`) in Lean 4, together with theorems settling the frozen
claims about the specification.

Modelling conventions:
* JS strings are modelled by Lean `String` (a wrapped `List Char`); all string
  primitives used by the source (`slice`, `padStart`, `replace`, `includes`,
  `split`/`join`, `trim`, `lastIndexOf`) are implemented over the character
  list, mirroring the JS semantics for the code-point strings the program
  manipulates.
* User-supplied regular expressions (`new RegExp(userPattern, flags)`) are the
  JS platform's; they are modelled by an abstract compilation function in
  `JsEnv` returning `none` on a compile failure, exactly where the source
  wraps compilation in `try`/`catch`.  Fixed regex literals of the source
  (whitespace collapsing, case-change word scanning, the validation character
  class) are implemented concretely.
* The evaluation-time clock (`new Date()`) and the epoch-to-calendar
  conversion (`new Date(ms)`) are explicit inputs in `JsEnv`.
* Numeric configuration fields come from non-negative `type="number"` UI
  inputs (`min={0}`/`min={1}` with `parseInt`) and are modelled as `Nat`.
* JS exceptions thrown by a transformer (e.g. `RangeError` from `padStart`)
  are modelled by letting the per-operation step return `Except`; the concrete
  transformers below are total, and the `try`/`catch` of `processFileName` is
  the `Except.error` branch of the fold.
-/

namespace BatchRenamer

/-! ## String and list helpers mirroring the JS primitives -/

/-- Decimal digit character. -/
def decDigit (d : Nat) : Char := Char.ofNat (48 + d)

/-- Decimal digits of a natural number, least significant first; the fuel
(always called with `n + 1`, which bounds the digit count) keeps the
recursion structural. -/
def decRevFuel : Nat → Nat → List Char
  | 0, _ => []
  | fuel + 1, n =>
    if n < 10 then [decDigit n]
    else decDigit (n % 10) :: decRevFuel fuel (n / 10)

/-- Models `Number.prototype.toString()` for a natural number. -/
def natToStr (n : Nat) : String := ⟨(decRevFuel (n + 1) n).reverse⟩

/-- Models `String.prototype.padStart(target, c)` for a one-character pad. -/
def padStartJs (s : String) (target : Nat) (c : Char) : String :=
  if target ≤ s.data.length then s
  else ⟨List.replicate (target - s.data.length) c ++ s.data⟩

/-- Boolean prefix test on character lists. -/
def isPre : List Char → List Char → Bool
  | [], _ => true
  | _ :: _, [] => false
  | a :: as, b :: bs => a == b && isPre as bs

/-- Models `String.prototype.includes(sub)` (substring occurrence). -/
def containsSub (sub : List Char) : List Char → Bool
  | [] => sub.isEmpty
  | l@(_ :: t) => isPre sub l || containsSub sub t

/-- Models `s.includes(sub)` on strings. -/
def containsSubStr (s sub : String) : Bool := containsSub sub.data s.data

/-- Models `String.prototype.replace(sub, repl)` with a string pattern:
replaces the first occurrence only. -/
def replaceFirstList (sub repl : List Char) : List Char → List Char
  | [] => if sub.isEmpty then repl else []
  | l@(c :: t) =>
    if isPre sub l then repl ++ l.drop sub.length
    else c :: replaceFirstList sub repl t

/-- `replaceFirstList` on strings. -/
def replaceFirstStr (s sub repl : String) : String :=
  ⟨replaceFirstList sub.data repl.data s.data⟩

/-- Models `name.split(find).join(repl)` for a non-empty `find`:
left-to-right non-overlapping replacement of every occurrence. -/
def replaceAllList (sub repl : List Char) : List Char → List Char
  | [] => []
  | c :: t =>
    if isPre sub (c :: t) && !sub.isEmpty then
      repl ++ replaceAllList sub repl (t.drop (sub.length - 1))
    else c :: replaceAllList sub repl t
  termination_by l => l.length
  decreasing_by
  · simp only [List.length_cons, List.length_drop]; omega
  · simp only [List.length_cons]; omega

/-- ASCII-case-folding character comparison (models the `i` regex flag on the
strings the program manipulates). -/
def ciEq (a b : Char) : Bool := a.toLower == b.toLower

/-- Case-insensitive prefix test. -/
def ciPre : List Char → List Char → Bool
  | [], _ => true
  | _ :: _, [] => false
  | a :: as, b :: bs => ciEq a b && ciPre as bs

/-- Models `name.replace(new RegExp(escapeRegex(find), 'gi'), repl)`:
case-insensitive literal replacement of every occurrence. -/
def ciReplaceAllList (sub repl : List Char) : List Char → List Char
  | [] => []
  | c :: t =>
    if ciPre sub (c :: t) && !sub.isEmpty then
      repl ++ ciReplaceAllList sub repl (t.drop (sub.length - 1))
    else c :: ciReplaceAllList sub repl t
  termination_by l => l.length
  decreasing_by
  · simp only [List.length_cons, List.length_drop]; omega
  · simp only [List.length_cons]; omega

/-- Models `name.replace(new RegExp(escapeRegex(find), 'i'), repl)`:
case-insensitive literal replacement of the first occurrence. -/
def ciReplaceFirstList (sub repl : List Char) : List Char → List Char
  | [] => if sub.isEmpty then repl else []
  | l@(c :: t) =>
    if ciPre sub l then repl ++ l.drop sub.length
    else c :: ciReplaceFirstList sub repl t

/-- The JS whitespace class `\s` (also the set stripped by `trim`). -/
def isJsSpace (c : Char) : Bool :=
  ([9, 10, 11, 12, 13, 32, 160, 0x1680, 0x2000, 0x2001, 0x2002, 0x2003,
    0x2004, 0x2005, 0x2006, 0x2007, 0x2008, 0x2009, 0x200A, 0x2028, 0x2029,
    0x202F, 0x205F, 0x3000, 0xFEFF] : List Nat).contains c.toNat

/-- Models `String.prototype.trim()`. -/
def jsTrim (s : String) : String :=
  ⟨((s.data.dropWhile isJsSpace).reverse.dropWhile isJsSpace).reverse⟩

/-- ASCII upper-casing of a string (models `toUpperCase` on the ASCII names
the program manipulates). -/
def jsToUpper (s : String) : String := ⟨s.data.map Char.toUpper⟩

/-- ASCII lower-casing of a string (models `toLowerCase`). -/
def jsToLower (s : String) : String := ⟨s.data.map Char.toLower⟩

/-- The regex word-character class `\w` = `[A-Za-z0-9_]`. -/
def isWordChar (c : Char) : Bool :=
  ('a' ≤ c && c ≤ 'z') || ('A' ≤ c && c ≤ 'Z') || ('0' ≤ c && c ≤ '9') || c == '_'

/-- The character class `[a-zA-Z0-9]`. -/
def isAlnumChar (c : Char) : Bool :=
  ('a' ≤ c && c ≤ 'z') || ('A' ≤ c && c ≤ 'Z') || ('0' ≤ c && c ≤ '9')

/-- JS `map((element, index) => ...)` with a running index. -/
def jsMapIdxGo (f : Nat → α → β) : Nat → List α → List β
  | _, [] => []
  | n, a :: t => f n a :: jsMapIdxGo f (n + 1) t

/-- JS `Array.prototype.map` exposing the element index. -/
def jsMapIdx (f : Nat → α → β) (l : List α) : List β := jsMapIdxGo f 0 l

/-! ## Data model (`src/types/index.ts`) -/

/-- The part of a browser `File` object the store reads: its `name` and its
`lastModified` epoch-milliseconds timestamp. -/
structure JsFile where
  name : String
  lastModified : Int
deriving DecidableEq

/-- `FileItem` of `types/index.ts`. -/
structure FileItem where
  id : String
  originalFile : JsFile
  originalName : String
  newName : String
  extension : String
  isValid : Bool
  errorMessage : Option String := none
deriving DecidableEq

/-- `FindReplaceConfig`. -/
structure FindReplaceConfig where
  find : String
  replace : String
  caseSensitive : Bool
  useRegex : Bool
  replaceAll : Bool
deriving DecidableEq

/-- `PrefixSuffixConfig`; `position` is the source's string union
`'prefix' | 'suffix'`. -/
structure PrefixSuffixConfig where
  text : String
  position : String
  addCounter : Bool
  counterStart : Nat
  counterPadding : Nat
  counterStep : Nat
deriving DecidableEq

/-- `RemoveCharsConfig`; `mode` is the source's five-value string union. -/
structure RemoveCharsConfig where
  mode : String
  count : Nat
  startIndex : Nat
  endIndex : Nat
  characters : String
  pattern : String
deriving DecidableEq

/-- `CaseChangeConfig`; `caseType` is the source's seven-value string union. -/
structure CaseChangeConfig where
  caseType : String
deriving DecidableEq

/-- `NumberingConfig`. -/
structure NumberingConfig where
  position : String
  startNumber : Nat
  step : Nat
  padding : Nat
  separator : String
  format : String
deriving DecidableEq

/-- `DateTimeConfig`. -/
structure DateTimeConfig where
  source : String
  format : String
  position : String
  separator : String
deriving DecidableEq

/-- `RegexConfig`. -/
structure RegexConfig where
  pattern : String
  replacement : String
  flags : String
deriving DecidableEq

/-- `TrimConfig`. -/
structure TrimConfig where
  trimSpaces : Bool
  removeDuplicateSpaces : Bool
  removeSpecialChars : Bool
  specialCharsToRemove : String
  replaceSpacesWith : String
deriving DecidableEq

/-- `ExtensionConfig`; `action` is the source's five-value string union. -/
structure ExtensionConfig where
  action : String
  newExtension : String
deriving DecidableEq

/-- The `OperationConfig` union of `types/index.ts`. -/
inductive OperationConfig where
  | findReplace (c : FindReplaceConfig)
  | prefixSuffix (c : PrefixSuffixConfig)
  | removeChars (c : RemoveCharsConfig)
  | caseChange (c : CaseChangeConfig)
  | numbering (c : NumberingConfig)
  | dateTime (c : DateTimeConfig)
  | regex (c : RegexConfig)
  | trim (c : TrimConfig)
  | extension (c : ExtensionConfig)
deriving DecidableEq

/-- `Operation`; `type` is the source's ten-value `OperationType` union. -/
structure Operation where
  id : String
  type : String
  enabled : Bool
  config : OperationConfig
deriving DecidableEq

/-- A pipeline is an ordered list of operations. -/
abbrev Pipeline := List Operation

/-- The components of a JS `Date` the store reads (`getMonth` is 0-based). -/
structure JsDate where
  year : Int
  month : Int
  day : Int
  hour : Int
  minute : Int
  second : Int

/-- The JS platform facilities the evaluator uses: user-supplied regex
compilation (`none` models a thrown compile error; a compiled regex is its
replace function taking the input and the replacement string), the
evaluation-time clock (`new Date()`) and the epoch-to-calendar conversion
(`new Date(ms)`). -/
structure JsEnv where
  compileRegex : String → String → Option (String → String → String)
  now : JsDate
  msToDate : Int → JsDate

/-! ## Name/extension splitting (ingestion and evaluator) -/

/-- `name.lastIndexOf('.')`, as an `Option Nat`. -/
def lastDotIdx (s : String) : Option Nat :=
  match s.data.reverse.findIdx? (· == '.') with
  | some k => some (s.data.length - 1 - k)
  | none => none

/-- The base-name component: the source keeps the whole name unless
`lastIndexOf('.') > 0`, in which case it takes `substring(0, lastDotIndex)`. -/
def baseOf (s : String) : String :=
  match lastDotIdx s with
  | some i => if i > 0 then ⟨s.data.take i⟩ else s
  | none => s

/-- The extension component derived at ingestion:
`lastDotIndex > 0 ? name.substring(lastDotIndex) : ''`. -/
def deriveExtension (s : String) : String :=
  match lastDotIdx s with
  | some i => if i > 0 then ⟨s.data.drop i⟩ else ""
  | none => ""

/-! ## Transformers (`src/store/index.ts`) -/

/-- `applyFindReplace` of the source.  The `useRegex` branch goes through the
platform regex engine; the case-insensitive literal branch (which the source
implements by compiling `escapeRegex(find)` with the `i` flag) is modelled
directly as case-insensitive literal replacement. -/
def applyFindReplace (env : JsEnv) (name : String) (config : FindReplaceConfig) : String :=
  if config.find = "" then name
  else if config.useRegex then
    let flags := if config.caseSensitive then "g" else "gi"
    let flags := if config.replaceAll then flags else replaceFirstStr flags "g" ""
    match env.compileRegex config.find flags with
    | some f => f name config.replace
    | none => name
  else if config.caseSensitive then
    if config.replaceAll then ⟨replaceAllList config.find.data config.replace.data name.data⟩
    else replaceFirstStr name config.find config.replace
  else
    if config.replaceAll then ⟨ciReplaceAllList config.find.data config.replace.data name.data⟩
    else ⟨ciReplaceFirstList config.find.data config.replace.data name.data⟩

/-- `applyPrefixSuffix` of the source.  `text.replace('[N]', padded) ||
padded` is the first-occurrence substitution with the JS falsy-`""` fallback;
the appended counter is guarded by `!text.includes(paddedNum)`. -/
def applyPrefixSuffix (name : String) (config : PrefixSuffixConfig) (index : Nat) : String :=
  let text := config.text
  let text :=
    if config.addCounter then
      let num := config.counterStart + index * config.counterStep
      let paddedNum := padStartJs (natToStr num) config.counterPadding '0'
      let text := replaceFirstStr text "[N]" paddedNum
      let text := if text = "" then paddedNum else text
      if containsSubStr text paddedNum then text else text ++ paddedNum
    else text
  if config.position = "prefix" then text ++ name else name ++ text

/-- `applyRemoveChars` of the source.  `name.slice(config.count)` drops the
first `count` characters; `name.slice(0, -config.count || name.length)` keeps
everything when `count` is `0` (JS `-0` is falsy) and otherwise keeps the
first `length - count` characters; `range` concatenates
`slice(0, startIndex)` and `slice(endIndex)`; `pattern` compiles the user
pattern with the `g` flag and replaces matches by `''`, with a compile
failure caught into a no-op. -/
def applyRemoveChars (env : JsEnv) (name : String) (config : RemoveCharsConfig) : String :=
  match config.mode with
  | "first-n" => ⟨name.data.drop config.count⟩
  | "last-n" =>
    if config.count = 0 then name
    else ⟨name.data.take (name.data.length - config.count)⟩
  | "range" => ⟨name.data.take config.startIndex ++ name.data.drop config.endIndex⟩
  | "specific" => ⟨name.data.filter (fun c => !(config.characters.data.contains c))⟩
  | "pattern" =>
    match env.compileRegex config.pattern "g" with
    | some f => f name ""
    | none => name
  | _ => name

/-- One title-case token: first character upper-cased, rest lower-cased. -/
def titleToken (l : List Char) : List Char :=
  match l with
  | [] => []
  | c :: t => Char.toUpper c :: t.map Char.toLower

/-- `name.replace(/\w\S*/g, txt => txt.charAt(0).toUpperCase() +
txt.substring(1).toLowerCase())`: a match starts at a word character and
greedily extends over non-whitespace. -/
def titleCaseList : List Char → List Char
  | [] => []
  | c :: t =>
    if isWordChar c then
      let run := c :: t.takeWhile (fun x => !isJsSpace x)
      titleToken run ++ titleCaseList (t.drop (run.length - 1))
    else c :: titleCaseList t
  termination_by l => l.length
  decreasing_by
  · simp only [List.length_cons, List.length_drop]; omega
  · simp only [List.length_cons]; omega

/-- A JS regex line terminator, which `.` does not match. -/
def isLineTerm (c : Char) : Bool :=
  c == '\n' || c == '\r' || c.toNat == 0x2028 || c.toNat == 0x2029

/-- Greedy backtracking search for the capture position of
`/[^a-zA-Z0-9]+(.)/` at the start of `s`: the largest `k ∈ [1, r]` such that
`s[k]` exists and is not a line terminator (`r` is the maximal non-alnum run
length). -/
def findCapture (s : List Char) : Nat → Option Nat
  | 0 => none
  | k + 1 =>
    match s[k + 1]? with
    | some ch => if isLineTerm ch then findCapture s k else some (k + 1)
    | none => findCapture s k

/-- `.replace(/[^a-zA-Z0-9]+(.)/g, (_, char) => char.toUpperCase())`:
a non-alphanumeric run followed by a captured character is replaced by the
upper-cased capture, with the regex engine's greedy backtracking. -/
def camelAux : List Char → List Char
  | [] => []
  | c :: t =>
    if isAlnumChar c then c :: camelAux t
    else
      let r := 1 + (t.takeWhile (fun x => !isAlnumChar x)).length
      match findCapture (c :: t) r with
      | some k =>
        (match (c :: t)[k]? with
         | some ch => [Char.toUpper ch]
         | none => []) ++ camelAux (t.drop k)
      | none => c :: camelAux t
  termination_by l => l.length
  decreasing_by
  · simp only [List.length_cons]; omega
  · simp only [List.length_cons, List.length_drop]; omega
  · simp only [List.length_cons]; omega

/-- The length of `dropWhile` never exceeds the input's length. -/
theorem length_dropWhile_le' (p : α → Bool) (l : List α) :
    (l.dropWhile p).length ≤ l.length := by
  induction l with
  | nil => simp [List.dropWhile]
  | cons a t ih =>
    by_cases h : p a
    · simp only [List.dropWhile, h, List.length_cons]
      omega
    · simp [List.dropWhile, h]

/-- `.replace(/\s+/g, sep)`: collapse each whitespace run to `sep`. -/
def collapseSpacesTo (sep : List Char) : List Char → List Char
  | [] => []
  | c :: t =>
    if isJsSpace c then sep ++ collapseSpacesTo sep (t.dropWhile isJsSpace)
    else c :: collapseSpacesTo sep t
  termination_by l => l.length
  decreasing_by
  · have := length_dropWhile_le' isJsSpace t
    simp only [List.length_cons]; omega
  · simp only [List.length_cons]; omega

/-- `.replace(/([a-z])([A-Z])/g, sep)`: insert the separator at each
lower-to-upper transition (matches consume both characters). -/
def insertSepLowerUpper (sep : Char) : List Char → List Char
  | [] => []
  | [a] => [a]
  | a :: b :: t =>
    if ('a' ≤ a && a ≤ 'z') && ('A' ≤ b && b ≤ 'Z') then
      a :: sep :: b :: insertSepLowerUpper sep t
    else a :: insertSepLowerUpper sep (b :: t)

/-- `applyCaseChange` of the source. -/
def applyCaseChange (name : String) (config : CaseChangeConfig) : String :=
  match config.caseType with
  | "uppercase" => jsToUpper name
  | "lowercase" => jsToLower name
  | "titlecase" => ⟨titleCaseList name.data⟩
  | "sentencecase" =>
    match name.data with
    | [] => ""
    | c :: t => ⟨Char.toUpper c :: t.map Char.toLower⟩
  | "camelCase" => ⟨camelAux (jsToLower name).data⟩
  | "snake_case" =>
    let r := collapseSpacesTo ['_'] name.data
    let r := insertSepLowerUpper '_' r
    let r := r.map (fun c => if isAlnumChar c || c == '_' then c else '_')
    ⟨r.map Char.toLower⟩
  | "kebab-case" =>
    let r := collapseSpacesTo ['-'] name.data
    let r := insertSepLowerUpper '-' r
    let r := r.map (fun c => if isAlnumChar c || c == '-' then c else '-')
    ⟨r.map Char.toLower⟩
  | _ => name

/-- `applyNumbering` of the source. -/
def applyNumbering (name : String) (config : NumberingConfig) (index : Nat) : String :=
  let num := config.startNumber + index * config.step
  let paddedNum := padStartJs (natToStr num) config.padding '0'
  let formatted := replaceFirstStr config.format "[N]" paddedNum
  match config.position with
  | "prefix" => formatted ++ config.separator ++ name
  | "suffix" => name ++ config.separator ++ formatted
  | "replace" => formatted
  | _ => name

/-- Models `Number.prototype.toString()` for an integer. -/
def intToStr (i : Int) : String :=
  if i < 0 then "-" ++ natToStr i.natAbs else natToStr i.natAbs

/-- `s.slice(-2)`: the last two characters (or all of a shorter string). -/
def sliceLastTwo (s : String) : String := ⟨s.data.drop (s.data.length - 2)⟩

/-- `formatDate` of the source: replaces the first occurrence of each token,
in the object-literal insertion order `YYYY, YY, MM, DD, HH, mm, ss`. -/
def formatDate (date : JsDate) (format : String) : String :=
  let tokens : List (String × String) :=
    [("YYYY", intToStr date.year),
     ("YY", sliceLastTwo (intToStr date.year)),
     ("MM", padStartJs (intToStr (date.month + 1)) 2 '0'),
     ("DD", padStartJs (intToStr date.day) 2 '0'),
     ("HH", padStartJs (intToStr date.hour) 2 '0'),
     ("mm", padStartJs (intToStr date.minute) 2 '0'),
     ("ss", padStartJs (intToStr date.second) 2 '0')]
  tokens.foldl (fun result p => replaceFirstStr result p.1 p.2) format

/-- `applyDateTime` of the source: `'modified'` and `'created'` both use the
file's `lastModified`; anything else uses the evaluation-time clock. -/
def applyDateTime (env : JsEnv) (name : String) (config : DateTimeConfig)
    (file : JsFile) : String :=
  let date :=
    match config.source with
    | "modified" => env.msToDate file.lastModified
    | "created" => env.msToDate file.lastModified
    | _ => env.now
  let formatted := formatDate date config.format
  match config.position with
  | "prefix" => formatted ++ config.separator ++ name
  | "suffix" => name ++ config.separator ++ formatted
  | "replace" => formatted
  | _ => name

/-- `applyRegex` of the source: empty pattern is a no-op; a compile failure
is caught into a no-op. -/
def applyRegex (env : JsEnv) (name : String) (config : RegexConfig) : String :=
  if config.pattern = "" then name
  else
    match env.compileRegex config.pattern config.flags with
    | some f => f name config.replacement
    | none => name

/-- `applyTrim` of the source; the special-character strip and the space
replacement are guarded by JS string truthiness (non-empty). -/
def applyTrim (name : String) (config : TrimConfig) : String :=
  let result := name
  let result := if config.trimSpaces then jsTrim result else result
  let result :=
    if config.removeDuplicateSpaces then ⟨collapseSpacesTo [' '] result.data⟩ else result
  let result :=
    if config.removeSpecialChars && !(config.specialCharsToRemove = "") then
      ⟨result.data.filter (fun c => !(config.specialCharsToRemove.data.contains c))⟩
    else result
  let result :=
    if !(config.replaceSpacesWith = "") then
      ⟨result.data.flatMap (fun c => if isJsSpace c then config.replaceSpacesWith.data else [c])⟩
    else result
  result

/-- `'.'`-prefix test for `applyExtension` (`newExtension.startsWith('.')`). -/
def startsWithDot (s : String) : Bool :=
  match s.data with
  | '.' :: _ => true
  | _ => false

/-- `applyExtension` of the source. -/
def applyExtension (extension : String) (config : ExtensionConfig) : String :=
  match config.action with
  | "change" =>
    if startsWithDot config.newExtension then config.newExtension
    else "." ++ config.newExtension
  | "add" =>
    extension ++ (if startsWithDot config.newExtension then config.newExtension
                  else "." ++ config.newExtension)
  | "remove" => ""
  | "lowercase" => jsToLower extension
  | "uppercase" => jsToUpper extension
  | _ => extension

/-! ## Pipeline evaluator (`processFileName` / `processFiles`) -/

/-- The per-file result of `processFileName`. -/
structure ProcessResult where
  newName : String
  isValid : Bool
  errorMessage : Option String := none
deriving DecidableEq

/-- One dispatch step of the evaluator's `for`-loop body: apply the operation
to the working `(name, extension)` pair.  A JS transformer may throw (for
example `RangeError` from a huge `padStart` target), which the `try`/`catch`
of `processFileName` converts into a per-file error; a step is therefore
fallible, with `Except.error` carrying the thrown message. -/
abbrev StepFn :=
  Operation → FileItem → Nat → String → String → Except String (String × String)

/-- The source's `switch (op.type)` dispatch to the concrete transformers.
Each `case` reads the operation's config through the corresponding `as` cast;
a mismatched kind/config pair, like an unknown kind, leaves the state
unchanged.  The concrete transformers are total, so this step never errors. -/
def defaultStep (env : JsEnv) : StepFn := fun op file index name extension =>
  Except.ok <|
    match op.type, op.config with
    | "find-replace", OperationConfig.findReplace c => (applyFindReplace env name c, extension)
    | "prefix", OperationConfig.prefixSuffix c => (applyPrefixSuffix name c index, extension)
    | "suffix", OperationConfig.prefixSuffix c => (applyPrefixSuffix name c index, extension)
    | "remove-chars", OperationConfig.removeChars c => (applyRemoveChars env name c, extension)
    | "case-change", OperationConfig.caseChange c => (applyCaseChange name c, extension)
    | "numbering", OperationConfig.numbering c => (applyNumbering name c index, extension)
    | "date-time", OperationConfig.dateTime c =>
      (applyDateTime env name c file.originalFile, extension)
    | "regex", OperationConfig.regex c => (applyRegex env name c, extension)
    | "trim", OperationConfig.trim c => (applyTrim name c, extension)
    | "extension", OperationConfig.extension c => (name, applyExtension extension c)
    | _, _ => (name, extension)

/-- The evaluator's `for (const op of operations)` loop: disabled operations
are skipped; an error from a step aborts the fold, carrying the operation
that threw and the message. -/
def foldOps (step : StepFn) (file : FileItem) (index : Nat) :
    List Operation → String → String → Except (Operation × String) (String × String)
  | [], name, extension => Except.ok (name, extension)
  | op :: rest, name, extension =>
    if op.enabled then
      match step op file index name extension with
      | Except.ok (n, e) => foldOps step file index rest n e
      | Except.error msg => Except.error (op, msg)
    else foldOps step file index rest name extension

/-- The validation character class `/[<>:"\/\\|?*\x00-\x1f]/`. -/
def isInvalidChar (c : Char) : Bool :=
  (['<', '>', ':', '"', '/', '\\', '|', '?', '*'] : List Char).contains c || c.toNat ≤ 0x1f

/-- `invalidChars.test(newName)`. -/
def hasInvalidChars (s : String) : Bool := s.data.any isInvalidChar

/-- `processFileName` of the source, parameterised by the per-operation step:
split the original name into base and stored extension, fold the enabled
operations, catch a thrown step into an invalid result that resets the
proposed name to the original and tags the operation kind, then validate the
recombined name for illegal characters and an empty (all-blank) base. -/
def processFileNameWith (step : StepFn) (file : FileItem) (operations : List Operation)
    (index : Nat) : ProcessResult :=
  match foldOps step file index operations (baseOf file.originalName) file.extension with
  | Except.error (op, msg) =>
    ⟨file.originalName, false, some ("Error in " ++ op.type ++ ": " ++ msg)⟩
  | Except.ok (name, extension) =>
    let newName := name ++ extension
    if hasInvalidChars newName then
      ⟨newName, false, some "Filename contains invalid characters"⟩
    else if jsTrim name = "" then
      ⟨newName, false, some "Filename cannot be empty"⟩
    else ⟨newName, true, none⟩

/-- `processFileName` with the concrete transformers. -/
def processFileName (env : JsEnv) (file : FileItem) (operations : List Operation)
    (index : Nat) : ProcessResult :=
  processFileNameWith (defaultStep env) file operations index

/-- Write a per-file result back into the file entry (the body of the
`files.map((file, index) => ...)` of `processFiles`). -/
def applyResult (file : FileItem) (result : ProcessResult) : FileItem :=
  { file with
    newName := result.newName
    isValid := result.isValid
    errorMessage := result.errorMessage }

/-- The first pass of `processFiles`: evaluate every file at its position. -/
def perFile (step : StepFn) (files : List FileItem) (operations : List Operation) :
    List FileItem :=
  jsMapIdx (fun index file => applyResult file (processFileNameWith step file operations index))
    files

/-- The occurrence count of a proposed name across the processed set (the
`nameCount` map of `processFiles`). -/
def countName (processed : List FileItem) (name : String) : Nat :=
  processed.countP (fun f => f.newName == name)

/-- `processFiles` of the source, parameterised by the step: the per-file
pass followed by the global duplicate pass, which marks every file whose
proposed name occurs more than once invalid with reason
`"Duplicate filename"`. -/
def processFilesWith (step : StepFn) (files : List FileItem)
    (operations : List Operation) : List FileItem :=
  let processedFiles := perFile step files operations
  processedFiles.map (fun file =>
    if countName processedFiles file.newName > 1 then
      { file with isValid := false, errorMessage := some "Duplicate filename" }
    else file)

/-- `processFiles` with the concrete transformers. -/
def processFiles (env : JsEnv) (files : List FileItem) (operations : List Operation) :
    List FileItem :=
  processFilesWith (defaultStep env) files operations

/-! ## Ingestion (`addFiles`) -/

/-- The `FileItem` built for an incoming file inside `addFiles` (the `id`
comes from `generateId()`, modelled as a supplied id). -/
def mkFileItem (id : String) (file : JsFile) : FileItem :=
  { id := id
    originalFile := file
    originalName := file.name
    newName := file.name
    extension := deriveExtension file.name
    isValid := true
    errorMessage := none }

/-- `addFiles` of the source: keep only incoming files whose `name` is not
among the currently queued `originalName`s (a `Set` membership test), build
entries for the kept files (ids from the supplied generator), append them,
then re-run `processFiles` with the current pipeline. -/
def addFiles (env : JsEnv) (ids : Nat → String) (files : List FileItem)
    (newFiles : List JsFile) (operations : List Operation) : List FileItem :=
  let existingNames := files.map (·.originalName)
  let newFileItems :=
    jsMapIdx (fun k f => mkFileItem (ids k) f)
      (newFiles.filter (fun f => !(existingNames.contains f.name)))
  processFiles env (files ++ newFileItems) operations

/-! ## History state machine (`pushToHistory` / `undo` / `redo`) -/

/-- The history-relevant slice of the store state: the live pipeline, the
snapshot list and the current index. -/
structure HistoryState where
  operations : Pipeline
  history : List Pipeline
  historyIndex : Nat
deriving DecidableEq

/-- `maxHistoryLength` of the store. -/
def maxHistoryLength : Nat := 50

/-- The store's initial state: `operations: []`, `history: [[]]`,
`historyIndex: 0`. -/
def initialState : HistoryState := ⟨[], [[]], 0⟩

/-- `pushToHistory` of the source: truncate the snapshot list to
`historyIndex + 1` entries, append a copy of the live `operations`, evict
from the front while the length exceeds `maxHistoryLength`, and point the
index at the last entry.  (Copies are identities over immutable values.) -/
def pushToHistory (s : HistoryState) : HistoryState :=
  let newHistory := s.history.take (s.historyIndex + 1) ++ [s.operations]
  let newHistory :=
    if newHistory.length > maxHistoryLength then
      newHistory.drop (newHistory.length - maxHistoryLength)
    else newHistory
  { s with history := newHistory, historyIndex := newHistory.length - 1 }

/-- The shape every pipeline-structure mutation has in the store
(`addOperation`, `updateOperation`, `removeOperation`, `toggleOperation`,
`reorderOperations`, `clearOperations`, `applyPreset`): first
`pushToHistory`, then install the mutated pipeline. -/
def commitMutation (s : HistoryState) (newOps : Pipeline) : HistoryState :=
  let s' := pushToHistory s
  { s' with operations := newOps }

/-- `undo` of the source: no-op at index 0, otherwise decrement the index and
install a copy of the snapshot now at the index. -/
def undo (s : HistoryState) : HistoryState :=
  if s.historyIndex > 0 then
    let newIndex := s.historyIndex - 1
    { s with operations := s.history.getD newIndex [], historyIndex := newIndex }
  else s

/-- `redo` of the source: no-op at the tip, otherwise increment the index and
install a copy of the snapshot now at the index. -/
def redo (s : HistoryState) : HistoryState :=
  if s.historyIndex < s.history.length - 1 then
    let newIndex := s.historyIndex + 1
    { s with operations := s.history.getD newIndex [], historyIndex := newIndex }
  else s

/-- `canUndo` of the source. -/
def canUndo (s : HistoryState) : Bool := decide (s.historyIndex > 0)

/-- `canRedo` of the source. -/
def canRedo (s : HistoryState) : Bool := decide (s.historyIndex < s.history.length - 1)

/-! ## Shared supporting lemmas -/

theorem strData_append (a b : String) : (a ++ b).data = a.data ++ b.data := by
  cases a; cases b; rfl

theorem strAppend_empty (s : String) : s ++ "" = s := by
  cases s with
  | mk d =>
    show String.mk (d ++ []) = String.mk d
    rw [List.append_nil]

/-- Recombining the evaluator's base/extension split restores the name. -/
theorem baseOf_append_deriveExtension (s : String) :
    baseOf s ++ deriveExtension s = s := by
  unfold baseOf deriveExtension
  cases h : lastDotIdx s with
  | none => exact strAppend_empty s
  | some i =>
    by_cases hi : i > 0
    · simp only [if_pos hi]
      cases s with
      | mk d =>
        show String.mk (d.take i ++ d.drop i) = String.mk d
        rw [List.take_append_drop]
    · simp only [if_neg hi]
      exact strAppend_empty s

theorem hasInvalidChars_append (a b : String) :
    hasInvalidChars (a ++ b) = (hasInvalidChars a || hasInvalidChars b) := by
  simp [hasInvalidChars, strData_append, List.any_append]

theorem jsMapIdxGo_getElem? (f : Nat → α → β) (n : Nat) (l : List α) (j : Nat) :
    (jsMapIdxGo f n l)[j]? = (l[j]?).map (f (n + j)) := by
  induction l generalizing n j with
  | nil => simp [jsMapIdxGo]
  | cons a t ih =>
    cases j with
    | zero => simp [jsMapIdxGo]
    | succ j =>
      have e : n + 1 + j = n + (j + 1) := by omega
      simp only [jsMapIdxGo, List.getElem?_cons_succ]
      rw [ih (n + 1) j, e]

theorem jsMapIdx_getElem? (f : Nat → α → β) (l : List α) (j : Nat) :
    (jsMapIdx f l)[j]? = (l[j]?).map (f j) := by
  simpa using jsMapIdxGo_getElem? f 0 l j

theorem map_jsMapIdxGo (f : Nat → α → β) (g : β → γ) (g' : α → γ) (n : Nat) (l : List α)
    (h : ∀ i a, g (f i a) = g' a) :
    (jsMapIdxGo f n l).map g = l.map g' := by
  induction l generalizing n with
  | nil => rfl
  | cons a t ih => simp [jsMapIdxGo, h, ih]

theorem countP_jsMapIdxGo (f : Nat → α → β) (p : β → Bool) (q : α → Bool) (n : Nat)
    (l : List α) (h : ∀ i a, a ∈ l → p (f i a) = q a) :
    (jsMapIdxGo f n l).countP p = l.countP q := by
  induction l generalizing n with
  | nil => rfl
  | cons a t ih =>
    simp only [jsMapIdxGo, List.countP_cons]
    rw [ih (n + 1) (fun i a ha => h i a (List.mem_cons_of_mem _ ha)),
      h n a (List.mem_cons_self a t)]

/-- An error from the operation fold can only originate from an enabled
operation. -/
theorem foldOps_error_enabled (step : StepFn) (file : FileItem) (index : Nat)
    (ops : List Operation) (name extension : String) (op : Operation) (msg : String)
    (h : foldOps step file index ops name extension = Except.error (op, msg)) :
    op.enabled = true := by
  induction ops generalizing name extension with
  | nil => simp [foldOps] at h
  | cons o rest ih =>
    simp only [foldOps] at h
    by_cases ho : o.enabled
    · rw [if_pos ho] at h
      cases hs : step o file index name extension with
      | ok v =>
        rw [hs] at h
        exact ih v.1 v.2 h
      | error m =>
        rw [hs] at h
        cases h
        exact ho
    · rw [if_neg ho] at h
      exact ih name extension h

/-- A fold over exclusively disabled operations is the identity. -/
theorem foldOps_disabled (step : StepFn) (file : FileItem) (index : Nat)
    (ops : List Operation) (name extension : String)
    (hdis : ∀ op ∈ ops, op.enabled = false) :
    foldOps step file index ops name extension = Except.ok (name, extension) := by
  induction ops with
  | nil => rfl
  | cons o rest ih =>
    have ho : o.enabled = false := hdis o (List.mem_cons_self o rest)
    simp only [foldOps, ho, Bool.false_eq_true, if_false]
    exact ih (fun op hop => hdis op (List.mem_cons_of_mem _ hop))

/-- The per-file pass preserves every entry's `originalName`. -/
theorem processFilesWith_map_originalName (step : StepFn) (files : List FileItem)
    (ops : List Operation) :
    (processFilesWith step files ops).map (·.originalName) =
      files.map (·.originalName) := by
  unfold processFilesWith
  rw [List.map_map]
  have h1 : ∀ x : FileItem,
      ((fun file : FileItem => file.originalName) ∘
        (fun file => if countName (perFile step files ops) file.newName > 1 then
          { file with isValid := false, errorMessage := some "Duplicate filename" }
        else file)) x = x.originalName := by
    intro x
    simp only [Function.comp]
    split <;> rfl
  rw [List.map_congr_left (fun a _ => h1 a)]
  exact map_jsMapIdxGo _ _ _ 0 files (fun i a => rfl)

/-! ## Claim theorems -/

/-- Concrete pipeline operations for the history traces. -/
def opA : Operation := ⟨"op1", "case-change", true, OperationConfig.caseChange ⟨"lowercase"⟩⟩

/-- A second concrete operation. -/
def opB : Operation := ⟨"op2", "extension", true, OperationConfig.extension ⟨"remove", ""⟩⟩

/-- A third concrete operation. -/
def opC : Operation := ⟨"op3", "trim", true, OperationConfig.trim ⟨true, true, false, "", ""⟩⟩

/-- The pipeline `P1 = [opA]`. -/
def P1 : Pipeline := [opA]

/-- The pipeline `P2 = [opA, opB]`. -/
def P2 : Pipeline := [opA, opB]

/-- The pipeline `P3 = [opC]`. -/
def P3 : Pipeline := [opC]

/-- The store state after two mutations from the initial state: pipeline `P1`
is installed (committing the prior pipeline `P0 = []`), then pipeline `P2`
(committing `P1`). -/
def c1state : HistoryState := commitMutation (commitMutation initialState P1) P2

/-- Claim C1: the spec's history round-trip — after committing mutations that
produce `P1` then `P2`, `undo()` should restore `P1`, a second `undo()`
should restore `P0` with `canUndo()` false, and `redo()` twice should restore
`P1` then `P2` with `canRedo()` false.  The code violates this: because
`pushToHistory` snapshots the pre-mutation pipeline and the live pipeline is
never pushed, the first `undo()` skips `P1` and restores `P0 = []`, the
redos restore `P0` then `P1`, and `P2` is unreachable.  This theorem
evaluates the store's history machine on that exact trace. -/
theorem history_roundtrip_code_bug :
    (undo c1state).operations = [] ∧
    (undo (undo c1state)).operations = [] ∧
    canUndo (undo (undo c1state)) = false ∧
    (redo (undo (undo c1state))).operations = [] ∧
    (redo (redo (undo (undo c1state)))).operations = P1 ∧
    canRedo (redo (redo (undo (undo c1state)))) = false ∧
    P1 ≠ [] ∧ P2 ≠ P1 ∧ P2 ≠ [] := by
  decide

/-- A history holding the snapshots `(P0, P1, P2)` with current index 2 and
live pipeline `P2` (here `P0 = []`). -/
def c2state : HistoryState := ⟨P2, [[], P1, P2], 2⟩

/-- Claim C2: the spec's history truncation — from snapshots `(P0, P1, P2)`
at index 2, undoing to index 0 and committing a mutation that produces `P3`
should leave the stack exactly `(P0, P3)` with redo unavailable.  The code
violates the scenario: `pushToHistory` appends the pre-mutation pipeline
(`P0`, the one restored by the undos), so the stack becomes `(P0, P0)` and
the produced `P3` is never snapshotted; redo is indeed unavailable.  This
theorem evaluates the store's history machine on that exact trace. -/
theorem history_truncation_code_bug :
    (commitMutation (undo (undo c2state)) P3).history = [([] : Pipeline), []] ∧
    (commitMutation (undo (undo c2state)) P3).history ≠ [[], P3] ∧
    (commitMutation (undo (undo c2state)) P3).operations = P3 ∧
    canRedo (commitMutation (undo (undo c2state)) P3) = false ∧
    (undo (undo c2state)).historyIndex = 0 ∧
    P3 ≠ [] := by
  decide

/-- Claim C4: evaluation is deterministic — with the evaluation-time inputs
made explicit (the file list, the pipeline, and the platform environment
carrying the regex engine and the `new Date()` clock used by a `date-time`
operation with source `'current'`), running `processFiles` twice with
identical inputs yields identical per-file outputs (`newName`, `isValid`,
`errorMessage`): evaluation is a pure function of its inputs. -/
theorem evaluate_deterministic (env : JsEnv) (files : List FileItem)
    (ops : List Operation) :
    processFiles env files ops = processFiles env files ops ∧
    (processFiles env files ops).map (fun f => (f.newName, f.isValid, f.errorMessage)) =
      (processFiles env files ops).map (fun f => (f.newName, f.isValid, f.errorMessage)) :=
  ⟨rfl, rfl⟩

/-- A concrete platform environment whose regex engine rejects every
pattern and whose clock is fixed. -/
def envTriv : JsEnv :=
  ⟨fun _ _ => none, ⟨2024, 0, 1, 0, 0, 0⟩, fun _ => ⟨1970, 0, 1, 0, 0, 0⟩⟩

/-- A concrete id supply for ingestion. -/
def idsDefault : Nat → String := fun n => natToStr n

/-- Claim C3, counterexample: ingesting a single batch that contains two raw
files both named `"a.txt"` into an empty queue produces two queued entries
sharing the same `originalName` — `addFiles` dedups only against the
already-queued names, not within the batch, so the claimed uniqueness
invariant fails. -/
theorem addFiles_batch_duplicate_counterexample :
    (addFiles envTriv idsDefault [] [⟨"a.txt", 0⟩, ⟨"a.txt", 0⟩] []).map
        (·.originalName) = ["a.txt", "a.txt"] ∧
    ¬ ((addFiles envTriv idsDefault [] [⟨"a.txt", 0⟩, ⟨"a.txt", 0⟩] []).map
        (·.originalName)).Nodup := by
  decide

/-- Claim C3 (amended): after ingestion the queued `originalName`s are
exactly the previously queued names followed by the batch's names filtered
to drop (not replace) any name already queued; hence no new entry collides
with a previously queued one, and the queue's names stay pairwise distinct
whenever they were distinct before and the batch's names are pairwise
distinct — but two same-named files inside one batch are both added. -/
theorem addFiles_dedup_amended (env : JsEnv) (ids : Nat → String)
    (files : List FileItem) (newFiles : List JsFile) (ops : List Operation) :
    (addFiles env ids files newFiles ops).map (·.originalName) =
      files.map (·.originalName) ++
        (newFiles.filter
          (fun f => !((files.map (·.originalName)).contains f.name))).map (·.name) ∧
    ((files.map (·.originalName)).Nodup → (newFiles.map (·.name)).Nodup →
      ((addFiles env ids files newFiles ops).map (·.originalName)).Nodup) := by
  have h1 : (addFiles env ids files newFiles ops).map (·.originalName) =
      files.map (·.originalName) ++
        (newFiles.filter
          (fun f => !((files.map (·.originalName)).contains f.name))).map (·.name) := by
    show (processFilesWith (defaultStep env) _ _).map (·.originalName) = _
    rw [processFilesWith_map_originalName, List.map_append]
    congr 1
    exact map_jsMapIdxGo _ _ _ 0 _ (fun i a => rfl)
  refine ⟨h1, ?_⟩
  intro hnf hnn
  rw [h1, List.nodup_append]
  refine ⟨hnf, hnn.sublist ((List.filter_sublist _).map _), ?_⟩
  intro a ha hb
  obtain ⟨f, hf, rfl⟩ := List.mem_map.mp hb
  have hc := (List.mem_filter.mp hf).2
  simp only [Bool.not_eq_true'] at hc
  simp_all [List.contains]

/-- A queued file entry named `a.txt`. -/
def fA0 : FileItem := mkFileItem "f1" ⟨"a.txt", 0⟩

/-- Witness for C3 (amended) at a concrete input: a batch holding a
same-named file (dropped) and a fresh one (kept) against a queue holding
`a.txt`. -/
theorem addFiles_dedup_amended_witness :
    (addFiles envTriv idsDefault [fA0] [⟨"a.txt", 5⟩, ⟨"b.txt", 0⟩] []).map
        (·.originalName) = ["a.txt", "b.txt"] ∧
    ((addFiles envTriv idsDefault [fA0] [⟨"a.txt", 5⟩, ⟨"b.txt", 0⟩] []).map
        (·.originalName)).Nodup := by
  have H := addFiles_dedup_amended envTriv idsDefault [fA0]
    [⟨"a.txt", 5⟩, ⟨"b.txt", 0⟩] []
  refine ⟨?_, H.2 (by decide) (by decide)⟩
  rw [H.1]
  decide

/-- Claim C5: per-file error containment — if an enabled operation's
transformer throws during the fold of `processFileName`, the file's result
has `isValid = false`, an error message carrying the operation kind and the
thrown message, and a proposed name reset to the original; an error can only
arise from an enabled operation; and every file's first-pass result is a
function of that file, the pipeline and its own index alone, so the failure
leaves every other file's evaluation untouched. -/
theorem transformer_error_containment (step : StepFn) (file : FileItem)
    (ops : List Operation) (index : Nat) (op : Operation) (msg : String)
    (h : foldOps step file index ops (baseOf file.originalName) file.extension =
      Except.error (op, msg)) :
    processFileNameWith step file ops index =
      ⟨file.originalName, false, some ("Error in " ++ op.type ++ ": " ++ msg)⟩ ∧
    op.enabled = true ∧
    ∀ (files : List FileItem) (j : Nat),
      (perFile step files ops)[j]? =
        (files[j]?).map (fun g => applyResult g (processFileNameWith step g ops j)) := by
  refine ⟨?_, foldOps_error_enabled step file index ops _ _ op msg h, ?_⟩
  · unfold processFileNameWith
    rw [h]
  · intro files j
    exact jsMapIdx_getElem? _ files j

/-- A step that always throws, with message `boom`. -/
def errStep : StepFn := fun _ _ _ _ _ => Except.error "boom"

/-- Witness for C5 at a concrete input: a single enabled `case-change`
operation whose step throws `boom` on the file `a.txt`. -/
theorem transformer_error_containment_witness :
    processFileNameWith errStep fA0 [opA] 0 =
      ⟨"a.txt", false, some "Error in case-change: boom"⟩ ∧
    opA.enabled = true ∧
    (perFile errStep [fA0] [opA])[0]? =
      some (applyResult fA0 (processFileNameWith errStep fA0 [opA] 0)) := by
  have H := transformer_error_containment errStep fA0 [opA] 0 opA "boom" (by rfl)
  refine ⟨H.1, H.2.1, ?_⟩
  rw [H.2.2 [fA0] 0]
  rfl

/-- Claim C6: the duplicate pass — a per-file result whose proposed name
occurs more than once (case-sensitive, exact match, extension included)
across the whole processed set is overridden to an invalid entry with reason
`"Duplicate filename"` (whatever its per-file validity was), while a file
whose proposed name is unique keeps its per-file result unchanged; no
exemption is made for a proposed name equal to the file's original name. -/
theorem duplicate_pass_overrides (env : JsEnv) (files : List FileItem)
    (ops : List Operation) (j : Nat) (fj : FileItem)
    (hj : (perFile (defaultStep env) files ops)[j]? = some fj) :
    (countName (perFile (defaultStep env) files ops) fj.newName > 1 →
      (processFiles env files ops)[j]? =
        some { fj with isValid := false, errorMessage := some "Duplicate filename" }) ∧
    (¬ countName (perFile (defaultStep env) files ops) fj.newName > 1 →
      (processFiles env files ops)[j]? = some fj) := by
  have hmap : (processFiles env files ops)[j]? =
      some (if countName (perFile (defaultStep env) files ops) fj.newName > 1 then
        { fj with isValid := false, errorMessage := some "Duplicate filename" }
      else fj) := by
    show (List.map _ (perFile (defaultStep env) files ops))[j]? = _
    rw [List.getElem?_map, hj]
    rfl
  constructor
  · intro hgt
    rw [hmap, if_pos hgt]
  · intro hle
    rw [hmap, if_neg hle]

/-- The final duplicate pass at an index, given the first-pass entry there. -/
theorem processFilesWith_getElem? (step : StepFn) (files : List FileItem)
    (ops : List Operation) (j : Nat) (fj : FileItem)
    (hj : (perFile step files ops)[j]? = some fj) :
    (processFilesWith step files ops)[j]? =
      some (if countName (perFile step files ops) fj.newName > 1 then
        { fj with isValid := false, errorMessage := some "Duplicate filename" }
      else fj) := by
  show (List.map _ (perFile step files ops))[j]? = _
  rw [List.getElem?_map, hj]
  rfl

/-- A second queued file entry also named `a.txt`. -/
def fA1 : FileItem := mkFileItem "f2" ⟨"a.txt", 0⟩

/-- Witness for C6 at a concrete input: two files whose proposed names are
both `a.txt` (each equal to its own original name) are both overridden to
`Duplicate filename`. -/
theorem duplicate_pass_overrides_witness :
    (processFiles envTriv [fA0, fA1] [])[0]? =
      some { fA0 with isValid := false, errorMessage := some "Duplicate filename" } ∧
    (processFiles envTriv [fA0, fA1] [])[1]? =
      some { fA1 with isValid := false, errorMessage := some "Duplicate filename" } := by
  have H0 := duplicate_pass_overrides envTriv [fA0, fA1] [] 0 fA0 (by decide)
  have H1 := duplicate_pass_overrides envTriv [fA0, fA1] [] 1 fA1 (by decide)
  exact ⟨H0.1 (by decide), H1.1 (by decide)⟩

/-- With every operation disabled the evaluator returns the recombined
original name, validated exactly on the original name and its base. -/
theorem processFileNameWith_disabled (env : JsEnv) (g : FileItem)
    (ops : List Operation) (i : Nat)
    (hdis : ∀ op ∈ ops, op.enabled = false)
    (hwfg : g.extension = deriveExtension g.originalName) :
    processFileNameWith (defaultStep env) g ops i =
      if hasInvalidChars g.originalName then
        ⟨g.originalName, false, some "Filename contains invalid characters"⟩
      else if jsTrim (baseOf g.originalName) = "" then
        ⟨g.originalName, false, some "Filename cannot be empty"⟩
      else ⟨g.originalName, true, none⟩ := by
  unfold processFileNameWith
  rw [foldOps_disabled _ _ _ _ _ _ hdis, hwfg]
  dsimp only
  rw [baseOf_append_deriveExtension]

/-- A queued file entry whose original name holds an illegal character. -/
def fBad : FileItem := mkFileItem "fx" ⟨"a<b.txt", 0⟩

/-- Claim C7, counterexample: a single queued file named `a<b.txt` (no
duplicate originals) evaluated under the empty pipeline keeps its original
name as the proposed name but is marked invalid — the claim's "every file is
marked valid (barring pre-existing duplicate originals)" fails because the
validation pass also rejects original names containing illegal characters
(and all-blank bases). -/
theorem disabled_pipeline_invalid_char_counterexample :
    (processFiles envTriv [fBad] []).map
        (fun f => (f.newName, f.isValid, f.errorMessage)) =
      [("a<b.txt", false, some "Filename contains invalid characters")] ∧
    ([fBad].map (·.originalName)).Nodup := by
  decide

/-- Claim C7 (amended): with every operation disabled (or an empty pipeline)
and entries carrying the extension derived at ingestion, every file's
proposed name equals its original name; and a file is marked valid provided
its original name passes the character check, its base is not all-blank, and
its original name is not duplicated among the queued originals. -/
theorem disabled_pipeline_identity_amended (env : JsEnv) (files : List FileItem)
    (ops : List Operation) (j : Nat) (f : FileItem)
    (hdis : ∀ op ∈ ops, op.enabled = false)
    (hwf : ∀ g ∈ files, g.extension = deriveExtension g.originalName)
    (hj : files[j]? = some f) :
    ((processFiles env files ops).map (·.newName))[j]? = some f.originalName ∧
    (hasInvalidChars f.originalName = false →
      jsTrim (baseOf f.originalName) ≠ "" →
      files.countP (fun g => g.originalName == f.originalName) ≤ 1 →
      ((processFiles env files ops).map (·.isValid))[j]? = some true) := by
  have hfmem : f ∈ files := List.getElem?_mem hj
  have hnewOf : ∀ i (g : FileItem), g ∈ files →
      (processFileNameWith (defaultStep env) g ops i).newName = g.originalName := by
    intro i g hg
    rw [processFileNameWith_disabled env g ops i hdis (hwf g hg)]
    split_ifs <;> rfl
  have hj' : (perFile (defaultStep env) files ops)[j]? =
      some (applyResult f (processFileNameWith (defaultStep env) f ops j)) := by
    show (jsMapIdx _ files)[j]? = _
    rw [jsMapIdx_getElem?, hj]
    rfl
  have hfin := processFilesWith_getElem? (defaultStep env) files ops j _ hj'
  have hRnew : (applyResult f (processFileNameWith (defaultStep env) f ops j)).newName =
      f.originalName := hnewOf j f hfmem
  constructor
  · show ((processFilesWith (defaultStep env) files ops).map (·.newName))[j]? = _
    rw [List.getElem?_map, hfin]
    simp only [Option.map_some']
    split
    · exact congrArg some hRnew
    · exact congrArg some hRnew
  · intro h1 h2 h3
    have hR : processFileNameWith (defaultStep env) f ops j =
        ⟨f.originalName, true, none⟩ := by
      rw [processFileNameWith_disabled env f ops j hdis (hwf f hfmem), h1]
      simp only [Bool.false_eq_true, if_false]
      rw [if_neg h2]
    have hcount : countName (perFile (defaultStep env) files ops)
        (applyResult f (processFileNameWith (defaultStep env) f ops j)).newName =
        files.countP (fun g => g.originalName == f.originalName) := by
      show (jsMapIdxGo _ 0 files).countP _ = _
      apply countP_jsMapIdxGo
      intro i g hg
      show ((applyResult g (processFileNameWith (defaultStep env) g ops i)).newName ==
        (applyResult f (processFileNameWith (defaultStep env) f ops j)).newName) = _
      rw [hRnew]
      show ((processFileNameWith (defaultStep env) g ops i).newName == f.originalName) = _
      rw [hnewOf i g hg]
    show ((processFilesWith (defaultStep env) files ops).map (·.isValid))[j]? = _
    rw [List.getElem?_map, hfin]
    have hle : ¬ countName (perFile (defaultStep env) files ops)
        (applyResult f (processFileNameWith (defaultStep env) f ops j)).newName > 1 := by
      rw [hcount]
      omega
    rw [if_neg hle]
    simp only [Option.map_some']
    have : (applyResult f (processFileNameWith (defaultStep env) f ops j)).isValid =
        (processFileNameWith (defaultStep env) f ops j).isValid := rfl
    rw [this, hR]

/-- A disabled numbering operation. -/
def opDis : Operation :=
  ⟨"d1", "numbering", false, OperationConfig.numbering ⟨"prefix", 1, 1, 3, "_", "[N]"⟩⟩

/-- Witness for C7 (amended) at a concrete input: one clean file under a
pipeline holding one disabled operation. -/
theorem disabled_pipeline_identity_amended_witness :
    ((processFiles envTriv [fA0] [opDis]).map (·.newName))[0]? = some "a.txt" ∧
    ((processFiles envTriv [fA0] [opDis]).map (·.isValid))[0]? = some true := by
  have H := disabled_pipeline_identity_amended envTriv [fA0] [opDis] 0 fA0
    (by decide) (by decide) rfl
  exact ⟨H.1, H.2 (by decide) (by decide) (by decide)⟩

/-! ### Lemmas on literal substring search and replacement -/

theorem isPre_exists (sub : List Char) : ∀ (l : List Char), isPre sub l = true →
    ∃ rest, l = sub ++ rest := by
  induction sub with
  | nil => intro l _; exact ⟨l, rfl⟩
  | cons a as ih =>
    intro l h
    cases l with
    | nil => simp [isPre] at h
    | cons b bs =>
      simp only [isPre, Bool.and_eq_true, beq_iff_eq] at h
      obtain ⟨rfl, h2⟩ := h
      obtain ⟨rest, rfl⟩ := ih bs h2
      exact ⟨rest, rfl⟩

theorem isPre_append (sub rest : List Char) : isPre sub (sub ++ rest) = true := by
  induction sub with
  | nil => rfl
  | cons a as ih => simp [isPre, ih]

theorem containsSub_parts (sub pre post : List Char) :
    containsSub sub (pre ++ (sub ++ post)) = true := by
  induction pre with
  | nil =>
    rw [List.nil_append]
    cases sub with
    | nil =>
      cases post with
      | nil => rfl
      | cons p ps => simp [containsSub, isPre]
    | cons s ss =>
      rw [List.cons_append]
      show (isPre (s :: ss) (s :: (ss ++ post)) || _) = true
      rw [show s :: (ss ++ post) = (s :: ss) ++ post from rfl, isPre_append]
      rfl
  | cons c pr ih =>
    rw [List.cons_append]
    show (_ || containsSub sub (pr ++ (sub ++ post))) = true
    rw [ih, Bool.or_true]

theorem replaceFirst_of_not_contains (sub repl : List Char) :
    ∀ (l : List Char), containsSub sub l = false → replaceFirstList sub repl l = l := by
  intro l
  induction l with
  | nil =>
    intro h
    simp only [containsSub] at h
    simp [replaceFirstList, h]
  | cons c t ih =>
    intro h
    simp only [containsSub, Bool.or_eq_false_iff] at h
    simp [replaceFirstList, h.1, ih h.2]

theorem replaceFirst_parts (sub repl : List Char) :
    ∀ (l : List Char), containsSub sub l = true →
    ∃ pre post, l = pre ++ (sub ++ post) ∧
      replaceFirstList sub repl l = pre ++ (repl ++ post) := by
  intro l
  induction l with
  | nil =>
    intro h
    simp only [containsSub] at h
    have hsub : sub = [] := by
      cases sub with
      | nil => rfl
      | cons a as => simp [List.isEmpty] at h
    subst hsub
    exact ⟨[], [], rfl, by simp [replaceFirstList]⟩
  | cons c t ih =>
    intro h
    by_cases hp : isPre sub (c :: t) = true
    · obtain ⟨rest, hrest⟩ := isPre_exists sub (c :: t) hp
      refine ⟨[], rest, by simpa using hrest, ?_⟩
      show replaceFirstList sub repl (c :: t) = repl ++ rest
      simp only [replaceFirstList, hp, if_true]
      rw [hrest, List.drop_left]
    · have hf : isPre sub (c :: t) = false := by
        simpa using hp
      have hct : containsSub sub t = true := by
        simp only [containsSub, hf, Bool.false_or] at h
        exact h
      obtain ⟨pre, post, hl, hr⟩ := ih hct
      refine ⟨c :: pre, post, by simp [hl], ?_⟩
      simp only [replaceFirstList, hf, Bool.false_eq_true, if_false, hr, List.cons_append]

theorem decRevFuel_succ_ne_nil (fuel n : Nat) : decRevFuel (fuel + 1) n ≠ [] := by
  unfold decRevFuel
  split <;> simp

theorem natToStr_data_ne_nil (n : Nat) : (natToStr n).data ≠ [] := by
  show (decRevFuel (n + 1) n).reverse ≠ []
  simp [decRevFuel_succ_ne_nil n n]

theorem padStart_data_ne_nil (s : String) (t : Nat) (c : Char)
    (h : s.data ≠ []) : (padStartJs s t c).data ≠ [] := by
  unfold padStartJs
  split
  · exact h
  · show List.replicate _ c ++ s.data ≠ []
    simp [h]

/-- Claim C8, counterexample: with text `v01`, counter enabled (start 1,
padding 2, step 1) and position index 0, the padded counter is `01`; the
text contains no `[N]`, so the claim demands the counter be appended,
yielding `v0101name` — but the code's `!text.includes(paddedNum)` guard sees
`01` already inside `v01` and appends nothing, producing `v01name`. -/
theorem prefix_suffix_counter_counterexample :
    applyPrefixSuffix "name" ⟨"v01", "prefix", true, 1, 2, 1⟩ 0 = "v01name" ∧
    ("v01name" : String) ≠ "v0101name" := by
  refine ⟨by decide, by decide⟩

/-- Claim C8 (amended): with the counter enabled, the counter
`counterStart + index * counterStep`, zero-padded to `counterPadding`
digits, replaces the first occurrence of the literal `[N]` when the text
contains it; for empty text the counter alone is used; otherwise the counter
is appended after the text unless the padded counter already occurs as a
substring of the text, in which case the text is used unchanged.  The
resulting text is placed before the working name for position `prefix` and
after it otherwise. -/
theorem prefix_suffix_counter_amended (name : String) (cfg : PrefixSuffixConfig)
    (index : Nat) (hc : cfg.addCounter = true) :
    let padded := padStartJs (natToStr (cfg.counterStart + index * cfg.counterStep))
      cfg.counterPadding '0'
    let place := fun t : String => if cfg.position = "prefix" then t ++ name else name ++ t
    (containsSubStr cfg.text "[N]" = true →
      applyPrefixSuffix name cfg index = place (replaceFirstStr cfg.text "[N]" padded)) ∧
    (cfg.text = "" → applyPrefixSuffix name cfg index = place padded) ∧
    (containsSubStr cfg.text "[N]" = false → cfg.text ≠ "" →
      containsSubStr cfg.text padded = false →
      applyPrefixSuffix name cfg index = place (cfg.text ++ padded)) ∧
    (containsSubStr cfg.text "[N]" = false → cfg.text ≠ "" →
      containsSubStr cfg.text padded = true →
      applyPrefixSuffix name cfg index = place cfg.text) := by
  intro padded place
  have hpadded : padded.data ≠ [] :=
    padStart_data_ne_nil _ _ _ (natToStr_data_ne_nil _)
  have hA : applyPrefixSuffix name cfg index =
      (let text := replaceFirstStr cfg.text "[N]" padded
       let text := if text = "" then padded else text
       let text := if containsSubStr text padded then text else text ++ padded
       place text) := by
    unfold applyPrefixSuffix
    rw [hc]
    rfl
  refine ⟨?_, ?_, ?_, ?_⟩
  · intro h1
    obtain ⟨pre, post, hsplit, hrepl⟩ :=
      replaceFirst_parts ("[N]" : String).data padded.data cfg.text.data h1
    have hT : (replaceFirstStr cfg.text "[N]" padded).data = pre ++ (padded.data ++ post) :=
      hrepl
    have hTne : replaceFirstStr cfg.text "[N]" padded ≠ "" := by
      intro hcontra
      have hdata : (replaceFirstStr cfg.text "[N]" padded).data = [] := by
        rw [hcontra]
      rw [hT] at hdata
      rcases List.append_eq_nil.mp hdata with ⟨-, h4⟩
      rcases List.append_eq_nil.mp h4 with ⟨h5, -⟩
      exact hpadded h5
    have hTc : containsSubStr (replaceFirstStr cfg.text "[N]" padded) padded = true := by
      show containsSub padded.data (replaceFirstStr cfg.text "[N]" padded).data = true
      rw [hT]
      exact containsSub_parts _ _ _
    rw [hA]
    dsimp only
    rw [if_neg hTne, if_pos hTc]
  · intro h2
    have hT : replaceFirstStr cfg.text "[N]" padded = "" := by
      rw [h2]
      rfl
    have hTc : containsSubStr padded padded = true := by
      show containsSub padded.data padded.data = true
      have := containsSub_parts padded.data [] []
      simpa using this
    rw [hA]
    dsimp only
    rw [hT, if_pos rfl, if_pos hTc]
  · intro h1 h2 h3
    have hT : replaceFirstStr cfg.text "[N]" padded = cfg.text := by
      show String.mk (replaceFirstList _ _ _) = cfg.text
      rw [replaceFirst_of_not_contains _ _ _ h1]
    rw [hA]
    dsimp only
    rw [hT, if_neg h2, if_neg (by rw [h3]; exact Bool.false_ne_true)]
  · intro h1 h2 h3
    have hT : replaceFirstStr cfg.text "[N]" padded = cfg.text := by
      show String.mk (replaceFirstList _ _ _) = cfg.text
      rw [replaceFirst_of_not_contains _ _ _ h1]
    rw [hA]
    dsimp only
    rw [hT, if_neg h2, if_pos h3]

/-- Witness for C8 (amended) at concrete inputs: text `file` (no `[N]`, no
counter collision) gets the counter appended; empty text with suffix
position yields the counter alone. -/
theorem prefix_suffix_counter_amended_witness :
    applyPrefixSuffix "name" ⟨"file", "prefix", true, 1, 2, 1⟩ 0 = "file01name" ∧
    applyPrefixSuffix "name" ⟨"", "suffix", true, 5, 3, 2⟩ 1 = "name007" := by
  obtain ⟨-, -, h3, -⟩ :=
    prefix_suffix_counter_amended "name" ⟨"file", "prefix", true, 1, 2, 1⟩ 0 rfl
  obtain ⟨-, h2', -, -⟩ :=
    prefix_suffix_counter_amended "name" ⟨"", "suffix", true, 5, 3, 2⟩ 1 rfl
  constructor
  · rw [h3 (by decide) (by decide) (by decide)]
    decide
  · rw [h2' rfl]
    decide

/-- Claim C9, counterexample: in `range` mode with `startIndex = 2` and
`endIndex = 1`, the claim's "drops exactly the characters at indices
`[startIndex, endIndex)`" demands a no-op (the range is empty), but the
code's `slice(0, startIndex) + slice(endIndex)` duplicates the overlap:
`abcdef` becomes `abbcdef`. -/
theorem remove_chars_range_counterexample :
    applyRemoveChars envTriv "abcdef" ⟨"range", 0, 2, 1, "", ""⟩ = "abbcdef" ∧
    ("abbcdef" : String) ≠ "abcdef" :=
  ⟨by decide, by decide⟩

/-- Claim C9 (amended): `first-n` drops the first `count` characters;
`last-n` with `count = 0` drops nothing and otherwise keeps the first
`length - count` characters (dropping the last `count`); `range` drops
exactly the characters at indices `[startIndex, endIndex)` provided
`startIndex ≤ endIndex`; `specific` drops every occurrence of each listed
character; `pattern` is a no-op on a pattern the regex engine rejects and
otherwise replaces every match by the empty string via the engine. -/
theorem remove_chars_modes_amended (env : JsEnv) (name : String)
    (cfg : RemoveCharsConfig) :
    (cfg.mode = "first-n" →
      (applyRemoveChars env name cfg).data = name.data.drop cfg.count) ∧
    (cfg.mode = "last-n" → cfg.count = 0 → applyRemoveChars env name cfg = name) ∧
    (cfg.mode = "last-n" → cfg.count ≠ 0 →
      (applyRemoveChars env name cfg).data =
        name.data.take (name.data.length - cfg.count)) ∧
    (cfg.mode = "range" → cfg.startIndex ≤ cfg.endIndex →
      (applyRemoveChars env name cfg).data =
        name.data.take cfg.startIndex ++ name.data.drop cfg.endIndex ∧
      name.data = name.data.take cfg.startIndex ++
        ((name.data.take cfg.endIndex).drop cfg.startIndex ++
          name.data.drop cfg.endIndex)) ∧
    (cfg.mode = "specific" →
      (applyRemoveChars env name cfg).data =
        name.data.filter (fun c => decide (c ∉ cfg.characters.data))) ∧
    (cfg.mode = "pattern" → env.compileRegex cfg.pattern "g" = none →
      applyRemoveChars env name cfg = name) ∧
    (cfg.mode = "pattern" → ∀ f, env.compileRegex cfg.pattern "g" = some f →
      applyRemoveChars env name cfg = f name "") := by
  refine ⟨?_, ?_, ?_, ?_, ?_, ?_, ?_⟩
  · intro hm
    simp [applyRemoveChars, hm]
  · intro hm h0
    simp [applyRemoveChars, hm, h0]
  · intro hm h0
    simp [applyRemoveChars, hm, h0]
  · intro hm hse
    constructor
    · simp [applyRemoveChars, hm]
    · have h1 : (name.data.take cfg.endIndex).take cfg.startIndex =
          name.data.take cfg.startIndex := by
        rw [List.take_take, Nat.min_eq_left hse]
      have h2 : name.data.take cfg.startIndex ++
          ((name.data.take cfg.endIndex).drop cfg.startIndex ++
            name.data.drop cfg.endIndex) = name.data := by
        rw [← List.append_assoc, ← h1, List.take_append_drop, List.take_append_drop]
      exact h2.symm
  · intro hm
    simp only [applyRemoveChars, hm]
    show name.data.filter _ = name.data.filter _
    apply List.filter_congr
    intro c _
    by_cases hc : c ∈ cfg.characters.data <;> simp [List.contains, hc]
  · intro hm hc
    simp [applyRemoveChars, hm, hc]
  · intro hm f hc
    simp [applyRemoveChars, hm, hc]

/-- Witness for C9 (amended) at concrete inputs, one per settled mode. -/
theorem remove_chars_modes_amended_witness :
    (applyRemoveChars envTriv "abcdef" ⟨"first-n", 2, 0, 0, "", ""⟩).data =
      ("abcdef" : String).data.drop 2 ∧
    applyRemoveChars envTriv "abcdef" ⟨"last-n", 0, 0, 0, "", ""⟩ = "abcdef" ∧
    (applyRemoveChars envTriv "abcdef" ⟨"range", 0, 1, 3, "", ""⟩).data =
      ("abcdef" : String).data.take 1 ++ ("abcdef" : String).data.drop 3 ∧
    applyRemoveChars envTriv "x" ⟨"pattern", 0, 0, 0, "", "["⟩ = "x" := by
  obtain ⟨hfn, -, -, -, -, -, -⟩ :=
    remove_chars_modes_amended envTriv "abcdef" ⟨"first-n", 2, 0, 0, "", ""⟩
  obtain ⟨-, hln, -, -, -, -, -⟩ :=
    remove_chars_modes_amended envTriv "abcdef" ⟨"last-n", 0, 0, 0, "", ""⟩
  obtain ⟨-, -, -, hrg, -, -, -⟩ :=
    remove_chars_modes_amended envTriv "abcdef" ⟨"range", 0, 1, 3, "", ""⟩
  obtain ⟨-, -, -, -, -, hpn, -⟩ :=
    remove_chars_modes_amended envTriv "x" ⟨"pattern", 0, 0, 0, "", "["⟩
  exact ⟨hfn rfl, hln rfl rfl, (hrg rfl (by decide)).1, hpn rfl rfl⟩

/-- Claim C10: `applyExtension` with action `change` and an empty
`newExtension` returns the bare dot `"."` for every current extension (and
action `add` with empty `newExtension` appends `"."`); end to end, a
pipeline holding that `change` operation gives a proposed name equal to the
unchanged base followed by a bare trailing dot, and the result still passes
both validation checks whenever the base itself does, since `.` is not an
illegal character. -/
theorem extension_empty_target_dot (ext : String) (cfg : ExtensionConfig)
    (env : JsEnv) (file : FileItem) (oid : String) (index : Nat) :
    (cfg.action = "change" → cfg.newExtension = "" → applyExtension ext cfg = ".") ∧
    (cfg.action = "add" → cfg.newExtension = "" →
      applyExtension ext cfg = ext ++ ".") ∧
    (hasInvalidChars (baseOf file.originalName) = false →
      jsTrim (baseOf file.originalName) ≠ "" →
      processFileName env file
        [⟨oid, "extension", true, OperationConfig.extension ⟨"change", ""⟩⟩] index =
        ⟨baseOf file.originalName ++ ".", true, none⟩) := by
  refine ⟨?_, ?_, ?_⟩
  · intro ha he
    simp [applyExtension, ha, he, startsWithDot, strAppend_empty]
  · intro ha he
    simp [applyExtension, ha, he, startsWithDot, strAppend_empty]
  · intro h1 h2
    unfold processFileName processFileNameWith
    have hfold : foldOps (defaultStep env) file index
        [⟨oid, "extension", true, OperationConfig.extension ⟨"change", ""⟩⟩]
        (baseOf file.originalName) file.extension =
        Except.ok (baseOf file.originalName, ".") := rfl
    rw [hfold]
    dsimp only
    rw [hasInvalidChars_append, h1]
    simp only [Bool.false_or]
    have hdot : hasInvalidChars "." = false := rfl
    rw [hdot]
    simp only [Bool.false_eq_true, if_false]
    rw [if_neg h2]

/-- Witness for C10 at a concrete input: the file `a.txt` under the
`change`-to-empty extension operation ends up as the valid name `a.`. -/
theorem extension_empty_target_dot_witness :
    applyExtension ".txt" ⟨"change", ""⟩ = "." ∧
    applyExtension ".txt" ⟨"add", ""⟩ = ".txt." ∧
    processFileName envTriv fA0
      [⟨"x1", "extension", true, OperationConfig.extension ⟨"change", ""⟩⟩] 0 =
      ⟨"a.", true, none⟩ := by
  have H := extension_empty_target_dot ".txt" (⟨"change", ""⟩ : ExtensionConfig)
    envTriv fA0 "x1" 0
  have H2 := extension_empty_target_dot ".txt" (⟨"add", ""⟩ : ExtensionConfig)
    envTriv fA0 "x1" 0
  refine ⟨H.1 rfl rfl, ?_, ?_⟩
  · rw [H2.2.1 rfl rfl]
    decide
  · have h3 := H.2.2 (by decide) (by decide)
    rw [h3]
    decide

end BatchRenamer
